import Mathlib

/-!
# Verification of a minimal proof-of-work ledger

A shallow embedding of `src/main.py`: a `Block` holds position, linkage,
payload, nonce and a SHA-256 digest of its own fields; a `Blockchain` owns an
append-only list of blocks, mines new blocks by a proof-of-work search and can
re-verify the whole chain.

Modelling conventions:
* SHA-256 is implemented executably over `Nat` (words are kept below `2 ^ 32`
  by explicit reduction), matching `hashlib.sha256(...).hexdigest()` including
  the UTF-8 encoding of the input string and the lowercase-hex rendering.
* Python's `time.time()` is an input: constructors take the *string form* of
  the timestamp (what `str(self.timestamp)` contributes to the serialization),
  since no claim depends on the numeric value of a timestamp.
* The unbounded `while True` mining loop is modelled with explicit fuel and an
  `Option` result; `none` is non-termination within the given fuel.
* `print` side effects are dropped (informational only, per the spec).
-/

set_option maxRecDepth 4000

/-- Reduce to a 32-bit word, the `& 0xffffffff` of the usual description. -/
def w32 (n : Nat) : Nat := n % 4294967296

/-- Right rotation of a 32-bit word by `k` places. -/
def rotr (k x : Nat) : Nat := w32 ((x >>> k) ||| (x <<< (32 - k)))

/-- The 64 SHA-256 round constants of FIPS 180-4, written in decimal. -/
def shaK : List Nat :=
  [1116352408, 1899447441, 3049323471, 3921009573,
   961987163, 1508970993, 2453635748, 2870763221,
   3624381080, 310598401, 607225278, 1426881987,
   1925078388, 2162078206, 2614888103, 3248222580,
   3835390401, 4022224774, 264347078, 604807628,
   770255983, 1249150122, 1555081692, 1996064986,
   2554220882, 2821834349, 2952996808, 3210313671,
   3336571891, 3584528711, 113926993, 338241895,
   666307205, 773529912, 1294757372, 1396182291,
   1695183700, 1986661051, 2177026350, 2456956037,
   2730485921, 2820302411, 3259730800, 3345764771,
   3516065817, 3600352804, 4094571909, 275423344,
   430227734, 506948616, 659060556, 883997877,
   958139571, 1322822218, 1537002063, 1747873779,
   1955562222, 2024104815, 2227730452, 2361852424,
   2428436474, 2756734187, 3204031479, 3329325298]

/-- The running state of a SHA-256 computation: eight 32-bit words. -/
structure SHAState where
  a : Nat
  b : Nat
  c : Nat
  d : Nat
  e : Nat
  f : Nat
  g : Nat
  h : Nat
deriving DecidableEq

/-- The SHA-256 initial hash value of FIPS 180-4, written in decimal. -/
def shaInit : SHAState :=
  ⟨1779033703, 3144134277, 1013904242, 2773480762,
   1359893119, 2600822924, 528734635, 1541459225⟩

/-- One compression round; `kw` is the round constant already added to the
message-schedule word. -/
def shaRound (s : SHAState) (kw : Nat) : SHAState :=
  let s1 := rotr 6 s.e ^^^ rotr 11 s.e ^^^ rotr 25 s.e
  let ch := (s.e &&& s.f) ^^^ ((4294967295 ^^^ s.e) &&& s.g)
  let temp1 := w32 (s.h + s1 + ch + kw)
  let s0 := rotr 2 s.a ^^^ rotr 13 s.a ^^^ rotr 22 s.a
  let maj := (s.a &&& s.b) ^^^ (s.a &&& s.c) ^^^ (s.b &&& s.c)
  let temp2 := w32 (s0 + maj)
  ⟨w32 (temp1 + temp2), s.a, s.b, s.c, w32 (s.d + temp1), s.e, s.f, s.g⟩

/-- Run the 64 compression rounds over the combined constant+schedule list. -/
def shaRounds : List Nat → SHAState → SHAState
  | [], s => s
  | kw :: rest, s => shaRounds rest (shaRound s kw)

/-- Extend the 16-word message schedule by `k` further words. -/
def extendW : Nat → List Nat → List Nat
  | 0, w => w
  | k + 1, w =>
    let n := w.length
    let x15 := w.getD (n - 15) 0
    let x2 := w.getD (n - 2) 0
    let s0 := rotr 7 x15 ^^^ rotr 18 x15 ^^^ (x15 >>> 3)
    let s1 := rotr 17 x2 ^^^ rotr 19 x2 ^^^ (x2 >>> 10)
    extendW k (w ++ [w32 (w.getD (n - 16) 0 + s0 + w.getD (n - 7) 0 + s1)])

/-- Group a byte list into big-endian 32-bit words. -/
def bytesToWords : List Nat → List Nat
  | b0 :: b1 :: b2 :: b3 :: rest =>
    (((b0 * 256 + b1) * 256 + b2) * 256 + b3) :: bytesToWords rest
  | _ => []

/-- Compress one 64-byte chunk into the running state. -/
def shaCompress (s : SHAState) (chunk : List Nat) : SHAState :=
  let w := extendW 48 (bytesToWords chunk)
  let t := shaRounds (List.zipWith (fun k wi => w32 (k + wi)) shaK w) s
  ⟨w32 (s.a + t.a), w32 (s.b + t.b), w32 (s.c + t.c), w32 (s.d + t.d),
   w32 (s.e + t.e), w32 (s.f + t.f), w32 (s.g + t.g), w32 (s.h + t.h)⟩

/-- Process `k` 64-byte chunks of the padded message. -/
def shaChunks : Nat → List Nat → SHAState → SHAState
  | 0, _, s => s
  | k + 1, msg, s => shaChunks k (msg.drop 64) (shaCompress s (msg.take 64))

/-- The 8-byte big-endian encoding of the bit length of an `L`-byte message. -/
def shaLenBytes (L : Nat) : List Nat :=
  let bits := 8 * L
  [(bits >>> 56) &&& 255, (bits >>> 48) &&& 255, (bits >>> 40) &&& 255,
   (bits >>> 32) &&& 255, (bits >>> 24) &&& 255, (bits >>> 16) &&& 255,
   (bits >>> 8) &&& 255, bits &&& 255]

/-- SHA-256 padding: a `0x80` byte, zeros to 56 mod 64, then the bit length. -/
def shaPad (msg : List Nat) : List Nat :=
  msg ++ 0x80 :: List.replicate ((119 - msg.length % 64) % 64) 0
      ++ shaLenBytes msg.length

/-- The SHA-256 state after absorbing a whole (byte-level) message. -/
def sha256bytes (msg : List Nat) : SHAState :=
  let p := shaPad msg
  shaChunks (p.length / 64) p shaInit

/-- Lowercase hexadecimal digit for a value below 16. -/
def hexChar (n : Nat) : Char := if n < 10 then Char.ofNat (48 + n) else Char.ofNat (87 + n)

/-- The eight lowercase-hex characters of one 32-bit word, most significant
nibble first. -/
def wordHex (x : Nat) : List Char :=
  [hexChar ((x >>> 28) &&& 15), hexChar ((x >>> 24) &&& 15),
   hexChar ((x >>> 20) &&& 15), hexChar ((x >>> 16) &&& 15),
   hexChar ((x >>> 12) &&& 15), hexChar ((x >>> 8) &&& 15),
   hexChar ((x >>> 4) &&& 15), hexChar (x &&& 15)]

/-- Render a SHA-256 state as its 64-character lowercase-hex digest. -/
def stateHex (s : SHAState) : String :=
  ⟨wordHex s.a ++ wordHex s.b ++ wordHex s.c ++ wordHex s.d
    ++ wordHex s.e ++ wordHex s.f ++ wordHex s.g ++ wordHex s.h⟩

/-- UTF-8 bytes of one character, as Python's `str.encode()` produces. -/
def utf8Bytes (c : Char) : List Nat :=
  let n := c.toNat
  if n < 128 then [n]
  else if n < 2048 then [192 ||| (n >>> 6), 128 ||| (n &&& 63)]
  else if n < 65536 then
    [224 ||| (n >>> 12), 128 ||| ((n >>> 6) &&& 63), 128 ||| (n &&& 63)]
  else
    [240 ||| (n >>> 18), 128 ||| ((n >>> 12) &&& 63),
     128 ||| ((n >>> 6) &&& 63), 128 ||| (n &&& 63)]

/-- UTF-8 encoding of a string, the model of Python's `s.encode()`. -/
def strBytes (s : String) : List Nat := (s.data.map utf8Bytes).flatten

/-- The model of `hashlib.sha256(s.encode()).hexdigest()`. -/
def sha256hex (s : String) : String := stateHex (sha256bytes (strBytes s))

/-- One ledger entry, the `Block` class of `main.py`: position, linkage,
timestamp (kept as its string form), payload, nonce, and the stored digest. -/
structure Block where
  index : Nat
  previous_hash : String
  timestamp : String
  data : String
  proof : Nat
  hash : String
deriving DecidableEq

instance : Inhabited Block := ⟨⟨0, "", "", "", 0, ""⟩⟩

/-- The canonical serialization hashed by `calculate_hash`:
`str(index) + previous_hash + str(timestamp) + str(data) + str(proof)`,
with no separators. -/
def Block.content (b : Block) : String :=
  toString b.index ++ b.previous_hash ++ b.timestamp ++ b.data ++ toString b.proof

/-- `Block.calculate_hash`: the SHA-256 hexdigest of the block's serialized
current fields.  It does not read the stored `hash` field. -/
def Block.calculate_hash (b : Block) : String := sha256hex b.content

/-- `Block.__init__`: store the five fields verbatim, then compute and store
the digest of those fields. -/
def Block.new (index : Nat) (previous_hash timestamp data : String) (proof : Nat) : Block :=
  let b : Block := { index, previous_hash, timestamp, data, proof, hash := "" }
  { b with hash := b.calculate_hash }

/-- The whole chain, the `Blockchain` class of `main.py`. -/
structure Blockchain where
  chain : List Block
  difficulty : Nat
deriving DecidableEq

/-- `create_genesis_block`: `Block(0, "0", time.time(), "Genesis Block", 0)`;
the timestamp string is taken as an input. -/
def create_genesis_block (ts : String) : Block :=
  Block.new 0 "0" ts "Genesis Block" 0

/-- `Blockchain.__init__`: a one-element chain holding genesis, difficulty 2. -/
def mkBlockchain (ts : String) : Blockchain :=
  { chain := [create_genesis_block ts], difficulty := 2 }

/-- `get_latest_block`: `chain[-1]`, which raises on an empty list — modelled
as `none` there. -/
def get_latest_block (B : Blockchain) : Option Block := B.chain.getLast?

/-- The string `'0' * d` of `d` zero characters. -/
def zeroString (d : Nat) : String := ⟨List.replicate d '0'⟩

/-- Python's `startswith` on explicit character lists. -/
def charsStarts : List Char → List Char → Bool
  | _, [] => true
  | [], _ :: _ => false
  | c :: cs, d :: ds => c == d && charsStarts cs ds

/-- `s.startswith(p)`. -/
def strStarts (s p : String) : Bool := charsStarts s.data p.data

/-- The body of the `while True` mining loop, with explicit fuel: recompute the
digest from current fields; stop if it starts with `difficulty` zeros,
otherwise increment `proof` and retry. -/
def powLoop (difficulty : Nat) : Nat → Block → Option Block
  | 0, _ => none
  | fuel + 1, b =>
    let b' := { b with hash := b.calculate_hash }
    if strStarts b'.hash (zeroString difficulty) then some b'
    else powLoop difficulty fuel { b' with proof := b'.proof + 1 }

/-- `proof_of_work`: reset `proof` to 0, then run the mining loop. -/
def proof_of_work (B : Blockchain) (fuel : Nat) (b : Block) : Option Block :=
  powLoop B.difficulty fuel { b with proof := 0 }

/-- `add_data`: capture the latest block's hash, build a candidate block with
`index = len(chain)`, mine it, append it. -/
def add_data (B : Blockchain) (fuel : Nat) (data timestamp : String) : Option Blockchain :=
  match get_latest_block B with
  | none => none
  | some last =>
    match proof_of_work B fuel (Block.new B.chain.length last.hash timestamp data 0) with
    | none => none
    | some mined => some { B with chain := B.chain ++ [mined] }

/-- The validation walk of `is_chain_valid` from a previous block over the
rest of the chain: digest self-consistency, then linkage, short-circuiting on
the first failure. -/
def is_chain_valid_from : Block → List Block → Bool
  | _, [] => true
  | prev, cur :: rest =>
    if cur.hash != cur.calculate_hash then false
    else if cur.previous_hash != prev.hash then false
    else is_chain_valid_from cur rest

/-- `is_chain_valid`: walk the chain from index 1, checking each block against
its predecessor; an empty or one-block chain is vacuously valid. -/
def is_chain_valid (B : Blockchain) : Bool :=
  match B.chain with
  | [] => true
  | g :: rest => is_chain_valid_from g rest

/-- The ledgers reachable by the engine: construct a `Blockchain`, then perform
any finite sequence of successful `add_data` calls. -/
inductive Reachable : Blockchain → Prop where
  | genesis (ts : String) : Reachable (mkBlockchain ts)
  | step (B B' : Blockchain) (fuel : Nat) (data ts : String) :
      Reachable B → add_data B fuel data ts = some B' → Reachable B'

/-- In-place mutation `chain[i].data = d` of Python, as a list update. -/
def setBlockData : List Block → Nat → String → List Block
  | [], _, _ => []
  | b :: rest, 0, d => { b with data := d } :: rest
  | b :: rest, i + 1, d => b :: setBlockData rest i d

/-- In-place mutation `chain[i].previous_hash = p` of Python. -/
def setBlockPrev : List Block → Nat → String → List Block
  | [], _, _ => []
  | b :: rest, 0, p => { b with previous_hash := p } :: rest
  | b :: rest, i + 1, p => b :: setBlockPrev rest i p

/-- The digest of `b`'s fields with the proof value replaced by `n`: the
quantity the mining loop tests at attempt `n`. -/
def hashAt (b : Block) (n : Nat) : String :=
  Block.calculate_hash { b with proof := n }

/-- The mining success test at attempt `n`: does the digest of `b`'s fields
with proof `n` start with `d` zeros? -/
def powHit (d : Nat) (b : Block) (n : Nat) : Bool :=
  strStarts (hashAt b n) (zeroString d)

/-- The linkage relation checked between consecutive blocks. -/
def linkRel (a b : Block) : Prop := b.previous_hash = a.hash

/-- A concrete block used as a verification fixture (its stored hash is the
arbitrary string "h"; `is_chain_valid` never checks the first block). -/
def wBlockA : Block := ⟨0, "0", "t", "g", 0, "h"⟩

/-- A one-block ledger fixture with difficulty 0. -/
def wLedgerA : Blockchain := ⟨[wBlockA], 0⟩

/-- The block mined from `wLedgerA` by `add_data` with payload "x": at
difficulty 0 the first digest is accepted, so proof stays 0. -/
def wMinedA : Block :=
  ⟨1, "h", "ts", "x", 0,
   "b17bd57ea81a44c65d13ac86ed8652b7328c344385532fe684e961a85c235870"⟩

/-- The ledger fixture after the `add_data` call. -/
def wLedgerA' : Blockchain := ⟨[wBlockA, wMinedA], 0⟩

/-- The result of `proof_of_work` on `wBlockA` at difficulty 0. -/
def wMinedC : Block :=
  ⟨0, "0", "t", "g", 0,
   "efb1bfb4537df4edc18d3e9d51606cc5795e87defb1b567d6f67807e386ce130"⟩

/-- A genesis fixture with a concrete timestamp string. -/
def wG : Block := create_genesis_block "1.5"

/-- A properly linked and hashed successor of `wG`. -/
def wB1 : Block := Block.new 1 wG.hash "2.5" "hello" 7

/-- A two-block, internally consistent ledger fixture. -/
def wChain : Blockchain := ⟨[wG, wB1], 2⟩

/-- A block agreeing with `wBlockA` only on the stored hash field. -/
def wBlockB : Block := ⟨5, "x", "u", "other", 9, "h"⟩

/-- The colliding serialization fixture: payload "D1", proof 23. -/
def collideA : Block := Block.new 1 "p" "t" "D1" 23

/-- The colliding serialization fixture: payload "D12", proof 3. -/
def collideB : Block := Block.new 1 "p" "t" "D12" 3

theorem sha256hex_abc : sha256hex "abc"
    = "ba7816bf8f01cfea414140de5dae2223b00361a396177a9cb410ff61f20015ad" := by
  rfl

theorem genesis_hash_value : (create_genesis_block "1.5").hash
    = "eb14e193c9a09f17ba0c8a57374bcf0e0f14054a84a362b4fba0de8ce43e2f60" := by
  rfl

theorem block_new_hash_value : (Block.new 1 "h" "ts" "x" 0).hash
    = "b17bd57ea81a44c65d13ac86ed8652b7328c344385532fe684e961a85c235870" := by
  rfl

theorem fresh_ledger_valid_value : is_chain_valid (mkBlockchain "1.5") = true := by
  rfl

theorem calc_hash_congr {b b' : Block} (h1 : b.index = b'.index)
    (h2 : b.previous_hash = b'.previous_hash) (h3 : b.timestamp = b'.timestamp)
    (h4 : b.data = b'.data) (h5 : b.proof = b'.proof) :
    b.calculate_hash = b'.calculate_hash := by
  unfold Block.calculate_hash Block.content
  rw [h1, h2, h3, h4, h5]

theorem powLoop_sound (d : Nat) : ∀ (fuel : Nat) (b b' : Block),
    powLoop d fuel b = some b' →
    b'.index = b.index ∧ b'.previous_hash = b.previous_hash ∧
    b'.timestamp = b.timestamp ∧ b'.data = b.data ∧
    b.proof ≤ b'.proof ∧
    b'.hash = b'.calculate_hash ∧
    b'.hash = hashAt b b'.proof ∧
    powHit d b b'.proof = true ∧
    (∀ m, b.proof ≤ m → m < b'.proof → powHit d b m = false) := by
  intro fuel
  induction fuel with
  | zero => intro b b' h; simp [powLoop] at h
  | succ n ih =>
    intro b b' h
    simp only [powLoop] at h
    split at h
    case isTrue hc =>
      obtain rfl : ({ b with hash := b.calculate_hash } : Block) = b' :=
        Option.some.inj h
      refine ⟨rfl, rfl, rfl, rfl, Nat.le_refl _, rfl, rfl, hc, ?_⟩
      intro m hm1 hm2
      exact absurd (Nat.lt_of_le_of_lt hm1 hm2) (Nat.lt_irrefl _)
    case isFalse hc =>
      obtain ⟨i1, i2, i3, i4, i5, i6, i7, i8, i9⟩ := ih _ _ h
      refine ⟨i1, i2, i3, i4, Nat.le_of_succ_le i5, i6, i7, i8, ?_⟩
      intro m hm1 hm2
      rcases Nat.eq_or_lt_of_le hm1 with hm | hm
      · exact Bool.eq_false_iff.mpr (hm ▸ hc)
      · exact i9 m hm hm2

theorem powLoop_complete (d : Nat) : ∀ (fuel n : Nat) (b : Block),
    b.proof ≤ n → n < b.proof + fuel →
    powHit d b n = true →
    (∀ m, b.proof ≤ m → m < n → powHit d b m = false) →
    powLoop d fuel b = some { b with proof := n, hash := hashAt b n } := by
  intro fuel
  induction fuel with
  | zero => intro n b h1 h2; omega
  | succ fuel ih =>
    intro n b h1 h2 hhit hmiss
    simp only [powLoop]
    split
    case isTrue hc =>
      rcases Nat.eq_or_lt_of_le h1 with hn | hn
      · subst hn; rfl
      · exact absurd hc (Bool.eq_false_iff.mp (hmiss b.proof (Nat.le_refl _) hn))
    case isFalse hc =>
      have hne : b.proof ≠ n := by
        intro he
        have hp : powHit d b b.proof = true := by rw [he]; exact hhit
        exact hc hp
      have hlt : b.proof < n := Nat.lt_of_le_of_ne h1 hne
      exact ih n { b with proof := b.proof + 1, hash := b.calculate_hash }
        hlt (by show n < b.proof + 1 + fuel; omega) hhit
        (fun m hm1 hm2 => hmiss m (Nat.le_of_succ_le hm1) hm2)

theorem is_chain_valid_from_iff : ∀ (l : List Block) (prev : Block),
    is_chain_valid_from prev l = true ↔
      ((∀ b ∈ l, b.hash = b.calculate_hash) ∧ List.Chain' linkRel (prev :: l)) := by
  intro l
  induction l with
  | nil =>
    intro prev
    constructor
    · intro _
      exact ⟨fun b hb => absurd hb (List.not_mem_nil b), List.chain'_singleton prev⟩
    · intro _; rfl
  | cons cur rest ih =>
    intro prev
    rw [is_chain_valid_from]
    cases hb1 : (cur.hash != cur.calculate_hash) with
    | true =>
      simp only [if_true]
      have e1 : ¬ cur.hash = cur.calculate_hash := by simpa using hb1
      constructor
      · intro h; exact absurd h (by simp)
      · rintro ⟨hint, _⟩
        exact absurd (hint cur (List.mem_cons_self cur rest)) e1
    | false =>
      have e1 : cur.hash = cur.calculate_hash := by simpa using hb1
      simp only [Bool.false_eq_true, if_false]
      cases hb2 : (cur.previous_hash != prev.hash) with
      | true =>
        simp only [if_true]
        have e2 : ¬ cur.previous_hash = prev.hash := by simpa using hb2
        constructor
        · intro h; exact absurd h (by simp)
        · rintro ⟨_, hch⟩
          exact absurd (List.chain'_cons.mp hch).1 e2
      | false =>
        have e2 : cur.previous_hash = prev.hash := by simpa using hb2
        simp only [Bool.false_eq_true, if_false]
        rw [ih cur]
        constructor
        · rintro ⟨hint, hch⟩
          refine ⟨?_, List.chain'_cons.mpr ⟨e2, hch⟩⟩
          intro b hb
          rcases List.mem_cons.mp hb with rfl | hb
          · exact e1
          · exact hint b hb
        · rintro ⟨hint, hch⟩
          exact ⟨fun b hb => hint b (List.mem_cons_of_mem _ hb),
            (List.chain'_cons.mp hch).2⟩

theorem is_chain_valid_iff (B : Blockchain) :
    is_chain_valid B = true ↔
      ((∀ b ∈ B.chain.tail, b.hash = b.calculate_hash) ∧
        List.Chain' linkRel B.chain) := by
  obtain ⟨chain, diff⟩ := B
  cases chain with
  | nil => simp [is_chain_valid]
  | cons g rest =>
    show is_chain_valid_from g rest = true ↔ _
    rw [is_chain_valid_from_iff]
    exact Iff.rfl

theorem reachable_props (B : Blockchain) (h : Reachable B) :
    B.chain ≠ [] ∧
    (∀ b ∈ B.chain, b.hash = b.calculate_hash) ∧
    List.Chain' linkRel B.chain ∧
    (∀ i, ∀ hi : i < B.chain.length, (B.chain.get ⟨i, hi⟩).index = i) := by
  induction h with
  | genesis ts =>
    refine ⟨by simp [mkBlockchain], ?_, ?_, ?_⟩
    · intro b hb
      have hb' : b = create_genesis_block ts := by
        simpa [mkBlockchain] using hb
      subst hb'
      rfl
    · simp [mkBlockchain]
    · intro i hi
      have hi0 : i = 0 := by simpa [mkBlockchain] using hi
      subst hi0
      rfl
  | step B0 B1 fuel data ts hR hadd ih =>
    obtain ⟨hne, hint, hch, hidx⟩ := ih
    simp only [add_data] at hadd
    split at hadd
    · exact absurd hadd (by simp)
    next last hlast =>
      split at hadd
      · exact absurd hadd (by simp)
      next mined hpow =>
        simp only [Option.some.injEq] at hadd
        subst hadd
        have hpow' : powLoop B0.difficulty fuel
            { Block.new B0.chain.length last.hash ts data 0 with proof := 0 }
            = some mined := hpow
        obtain ⟨i1, i2, i3, i4, i5, i6, i7, i8, i9⟩ :=
          powLoop_sound B0.difficulty fuel _ mined hpow'
        refine ⟨by simp, ?_, ?_, ?_⟩
        · intro b hb
          rcases List.mem_append.mp hb with hb | hb
          · exact hint b hb
          · rw [List.mem_singleton.mp hb]
            exact i6
        · refine List.Chain'.append hch (List.chain'_singleton mined) ?_
          intro x hx y hy
          have hx' : x = last := by
            have hgl : B0.chain.getLast? = some last := hlast
            rw [hgl] at hx
            exact (by simpa using hx : last = x).symm
          have hy' : y = mined := (by simpa using hy : mined = y).symm
          subst hx'; subst hy'
          exact i2
        · intro i hi
          have hlen : i < B0.chain.length + 1 := by
            simpa using hi
          rcases Nat.lt_or_ge i B0.chain.length with hcase | hcase
          · have h2 := hidx i hcase
            rw [List.get_eq_getElem, List.getElem_append_left' [mined] hcase] at h2
            rw [List.get_eq_getElem]
            exact h2
          · have hieq : i = B0.chain.length := by omega
            rw [List.get_eq_getElem, List.getElem_concat_length _ _ _ hieq]
            rw [hieq]
            exact i1

theorem and15_lt (x : Nat) : x &&& 15 < 16 :=
  Nat.lt_succ_of_le Nat.and_le_right

theorem hexChar_hex (n : Nat) (h : n < 16) :
    ('0' ≤ hexChar n ∧ hexChar n ≤ '9') ∨ ('a' ≤ hexChar n ∧ hexChar n ≤ 'f') := by
  interval_cases n <;> decide

theorem wordHex_hex {c : Char} {x : Nat} (h : c ∈ wordHex x) :
    ('0' ≤ c ∧ c ≤ '9') ∨ ('a' ≤ c ∧ c ≤ 'f') := by
  simp only [wordHex, List.mem_cons, List.not_mem_nil, or_false] at h
  rcases h with rfl | rfl | rfl | rfl | rfl | rfl | rfl | rfl <;>
    exact hexChar_hex _ (and15_lt _)

theorem sha256hex_length (s : String) : (sha256hex s).length = 64 := by
  show (stateHex (sha256bytes (strBytes s))).length = 64
  simp [stateHex, String.length, wordHex]

theorem sha256hex_chars (s : String) :
    ∀ c ∈ (sha256hex s).data, ('0' ≤ c ∧ c ≤ '9') ∨ ('a' ≤ c ∧ c ≤ 'f') := by
  intro c hc
  simp only [sha256hex, stateHex, List.mem_append] at hc
  rcases hc with ((((((h | h) | h) | h) | h) | h) | h) | h <;> exact wordHex_hex h

theorem getD_mem_of_lt : ∀ (l : List Block) (i : Nat), i < l.length →
    l.getD i default ∈ l := by
  intro l
  induction l with
  | nil => intro i hi; simp at hi
  | cons x xs ih =>
    intro i hi
    cases i with
    | zero => exact List.mem_cons_self x xs
    | succ j =>
      exact List.mem_cons_of_mem x (ih j (by simpa using hi))

theorem setBlockData_length : ∀ (l : List Block) (i : Nat) (s : String),
    (setBlockData l i s).length = l.length := by
  intro l
  induction l with
  | nil => intro i s; rfl
  | cons x xs ih =>
    intro i s
    cases i with
    | zero => rfl
    | succ j => simpa [setBlockData] using ih j s

theorem setBlockData_getD_eq : ∀ (l : List Block) (i : Nat) (s : String),
    i < l.length →
    (setBlockData l i s).getD i default = { l.getD i default with data := s } := by
  intro l
  induction l with
  | nil => intro i s hi; simp at hi
  | cons x xs ih =>
    intro i s hi
    cases i with
    | zero => rfl
    | succ j => exact ih j s (by simpa using hi)

theorem setBlockData_getD_ne : ∀ (l : List Block) (i j : Nat) (s : String),
    j ≠ i → (setBlockData l i s).getD j default = l.getD j default := by
  intro l
  induction l with
  | nil => intro i j s hji; rfl
  | cons x xs ih =>
    intro i j s hji
    cases i with
    | zero =>
      cases j with
      | zero => exact absurd rfl hji
      | succ k => rfl
    | succ i' =>
      cases j with
      | zero => rfl
      | succ k => exact ih i' k s (fun he => hji (by rw [he]))

theorem setBlockPrev_length : ∀ (l : List Block) (i : Nat) (p : String),
    (setBlockPrev l i p).length = l.length := by
  intro l
  induction l with
  | nil => intro i p; rfl
  | cons x xs ih =>
    intro i p
    cases i with
    | zero => rfl
    | succ j => simpa [setBlockPrev] using ih j p

theorem setBlockPrev_getD_eq : ∀ (l : List Block) (i : Nat) (p : String),
    i < l.length →
    (setBlockPrev l i p).getD i default
      = { l.getD i default with previous_hash := p } := by
  intro l
  induction l with
  | nil => intro i p hi; simp at hi
  | cons x xs ih =>
    intro i p hi
    cases i with
    | zero => rfl
    | succ j => exact ih j p (by simpa using hi)

theorem setBlockPrev_getD_ne : ∀ (l : List Block) (i j : Nat) (p : String),
    j ≠ i → (setBlockPrev l i p).getD j default = l.getD j default := by
  intro l
  induction l with
  | nil => intro i j p hji; rfl
  | cons x xs ih =>
    intro i j p hji
    cases i with
    | zero =>
      cases j with
      | zero => exact absurd rfl hji
      | succ k => rfl
    | succ i' =>
      cases j with
      | zero => rfl
      | succ k => exact ih i' k p (fun he => hji (by rw [he]))

theorem getD_tail_mem (l : List Block) (i : Nat) (h1 : 1 ≤ i) (h2 : i < l.length) :
    l.getD i default ∈ l.tail := by
  cases l with
  | nil => simp at h2
  | cons x xs =>
    cases i with
    | zero => omega
    | succ j =>
      show xs.getD j default ∈ xs
      exact getD_mem_of_lt xs j (by simpa using h2)

theorem valid_false_of_tail_bad (B : Blockchain) (b : Block) (hb : b ∈ B.chain.tail)
    (hbad : b.hash ≠ b.calculate_hash) : is_chain_valid B = false := by
  cases hv : is_chain_valid B with
  | false => rfl
  | true =>
    obtain ⟨hint, _⟩ := (is_chain_valid_iff B).mp hv
    exact absurd (hint b hb) hbad

theorem valid_false_of_link_bad (B : Blockchain) (i : Nat)
    (hi : i + 1 < B.chain.length)
    (hbad : (B.chain.getD (i + 1) default).previous_hash
      ≠ (B.chain.getD i default).hash) : is_chain_valid B = false := by
  cases hv : is_chain_valid B with
  | false => rfl
  | true =>
    obtain ⟨_, hch⟩ := (is_chain_valid_iff B).mp hv
    have hR := List.chain'_iff_get.mp hch i (by omega)
    refine absurd ?_ hbad
    rw [List.getD_eq_getElem _ _ hi, List.getD_eq_getElem _ _ (by omega)]
    exact hR


/-- C1: every ledger reachable by construction followed by any finite sequence
of `add_data` calls satisfies, simultaneously: chain linkage
(`chain[i].previous_hash = chain[i-1].hash` for `i ≥ 1`), digest integrity
(every block's stored hash is `calculate_hash` of its own current fields),
and index continuity (`chain[i].index = i`). -/
theorem claim_reachable_invariants (B : Blockchain) (h : Reachable B) :
    (∀ i, i + 1 < B.chain.length →
      (B.chain.getD (i + 1) default).previous_hash
        = (B.chain.getD i default).hash) ∧
    (∀ b ∈ B.chain, b.hash = b.calculate_hash) ∧
    (∀ i, i < B.chain.length → (B.chain.getD i default).index = i) := by
  obtain ⟨hne, hint, hch, hidx⟩ := reachable_props B h
  refine ⟨?_, hint, ?_⟩
  · intro i hi
    have hR := List.chain'_iff_get.mp hch i (by omega)
    rw [List.getD_eq_getElem _ _ hi, List.getD_eq_getElem _ _ (by omega)]
    exact hR
  · intro i hi
    rw [List.getD_eq_getElem _ _ hi]
    exact hidx i hi

/-- Witness for C1 at the freshly constructed ledger. -/
theorem claim_reachable_invariants_witness :
    ((mkBlockchain "1.5").chain.getD 0 default).index = 0 :=
  (claim_reachable_invariants _ (Reachable.genesis "1.5")).2.2 0 (by decide)

/-- C6: a ledger reachable by construction and any finite number of
`add_data` calls, with no external mutation, passes `is_chain_valid`. -/
theorem claim_validity_roundtrip (B : Blockchain) (h : Reachable B) :
    is_chain_valid B = true := by
  obtain ⟨hne, hint, hch, hidx⟩ := reachable_props B h
  exact (is_chain_valid_iff B).mpr
    ⟨fun b hb => hint b (List.mem_of_mem_tail hb), hch⟩

/-- Witness for C6 at the freshly constructed ledger. -/
theorem claim_validity_roundtrip_witness :
    is_chain_valid (mkBlockchain "1.5") = true :=
  claim_validity_roundtrip _ (Reachable.genesis "1.5")

/-- C2: `calculate_hash` is the SHA-256 lowercase-hex digest of the
separator-free concatenation of exactly the five fields, is 64 characters of
lowercase hex, and is deterministic: blocks agreeing on the five fields
(regardless of the stored hash field) get the same digest. -/
theorem claim_calculate_hash_deterministic (b : Block) :
    b.calculate_hash
      = sha256hex (toString b.index ++ b.previous_hash ++ b.timestamp
          ++ b.data ++ toString b.proof) ∧
    b.calculate_hash.length = 64 ∧
    (∀ c ∈ b.calculate_hash.data,
      ('0' ≤ c ∧ c ≤ '9') ∨ ('a' ≤ c ∧ c ≤ 'f')) ∧
    (∀ b' : Block, b'.index = b.index → b'.previous_hash = b.previous_hash →
      b'.timestamp = b.timestamp → b'.data = b.data → b'.proof = b.proof →
      b'.calculate_hash = b.calculate_hash) := by
  refine ⟨rfl, sha256hex_length _, sha256hex_chars _, ?_⟩
  intro b' h1 h2 h3 h4 h5
  exact calc_hash_congr h1 h2 h3 h4 h5

/-- Witness for C2 at a concrete block. -/
theorem claim_calculate_hash_deterministic_witness :
    wBlockA.calculate_hash.length = 64 :=
  (claim_calculate_hash_deterministic wBlockA).2.1

/-- C5: a freshly constructed ledger has exactly one block; that genesis block
has index 0, previous hash "0", proof 0, the fixed sentinel payload
"Genesis Block", and the ledger difficulty is 2. -/
theorem claim_genesis_shape (ts : String) :
    (mkBlockchain ts).chain.length = 1 ∧
    ((mkBlockchain ts).chain.getD 0 default).index = 0 ∧
    ((mkBlockchain ts).chain.getD 0 default).previous_hash = "0" ∧
    ((mkBlockchain ts).chain.getD 0 default).proof = 0 ∧
    ((mkBlockchain ts).chain.getD 0 default).data = "Genesis Block" ∧
    (mkBlockchain ts).difficulty = 2 :=
  ⟨rfl, rfl, rfl, rfl, rfl, rfl⟩

/-- C9: the separator-free serialization is not injective: two blocks that
differ in their data and proof fields serialize to the same string, hence
get equal digests. -/
theorem claim_serialization_not_injective :
    collideA.data ≠ collideB.data ∧ collideA.proof ≠ collideB.proof ∧
    collideA.content = collideB.content ∧
    collideA.calculate_hash = collideB.calculate_hash ∧
    collideA.hash = collideB.hash :=
  ⟨by decide, by decide, rfl, rfl, rfl⟩

/-- C3: whenever the mining loop returns a block, that block's stored hash
starts with `difficulty` zero characters and equals `calculate_hash` of its
final fields; the search resets proof to 0 and increments by one on each
failed check, so the final proof value succeeds and every smaller proof value
fails the digest test. -/
theorem claim_proof_of_work_postcondition (B : Blockchain) (fuel : Nat)
    (b b' : Block) (h : proof_of_work B fuel b = some b') :
    strStarts b'.hash (zeroString B.difficulty) = true ∧
    b'.hash = b'.calculate_hash ∧
    powHit B.difficulty b b'.proof = true ∧
    (∀ m, m < b'.proof → powHit B.difficulty b m = false) := by
  obtain ⟨i1, i2, i3, i4, i5, i6, i7, i8, i9⟩ :=
    powLoop_sound B.difficulty fuel { b with proof := 0 } b' h
  refine ⟨?_, i6, i8, ?_⟩
  · rw [i7]
    exact i8
  · intro m hm
    exact i9 m (Nat.zero_le m) hm

/-- Witness for C3 at difficulty 0, where the first digest is accepted. -/
theorem claim_proof_of_work_postcondition_witness :
    strStarts wMinedC.hash (zeroString wLedgerA.difficulty) = true :=
  (claim_proof_of_work_postcondition wLedgerA 1 wBlockA wMinedC (by rfl)).1

/-- C10: assuming some proof value makes the digest start with the required
zeros, the mining loop terminates for sufficient fuel, and any successful run
sets the proof to the least such value, independently of the proof value held
on entry (it is unconditionally reset to 0 first). -/
theorem claim_proof_of_work_least (B : Blockchain) (b : Block)
    (h : ∃ n, powHit B.difficulty b n = true) :
    (∃ fuel b', proof_of_work B fuel b = some b') ∧
    (∀ p₀ fuel b', proof_of_work B fuel { b with proof := p₀ } = some b' →
      b'.proof = Nat.find h) := by
  constructor
  · refine ⟨Nat.find h + 1,
      { b with proof := Nat.find h, hash := hashAt b (Nat.find h) }, ?_⟩
    exact powLoop_complete B.difficulty (Nat.find h + 1) (Nat.find h)
      { b with proof := 0 } (Nat.zero_le _)
      (by show Nat.find h < 0 + (Nat.find h + 1); omega)
      (Nat.find_spec h)
      (fun m _ hm2 => Bool.eq_false_iff.mpr (Nat.find_min h hm2))
  · intro p₀ fuel b' hsome
    have hs : powLoop B.difficulty fuel { b with proof := 0 } = some b' := hsome
    obtain ⟨i1, i2, i3, i4, i5, i6, i7, i8, i9⟩ :=
      powLoop_sound B.difficulty fuel { b with proof := 0 } b' hs
    have hhit : powHit B.difficulty b b'.proof = true := i8
    have hmin : ∀ m, m < b'.proof → powHit B.difficulty b m = false :=
      fun m hm => i9 m (Nat.zero_le m) hm
    refine ((Nat.find_eq_iff h).mpr ⟨hhit, ?_⟩).symm
    intro n hn hcon
    rw [hmin n hn] at hcon
    exact absurd hcon (by simp)

/-- Witness for C10 at difficulty 0, where proof 0 already succeeds. -/
theorem claim_proof_of_work_least_witness :
    ∃ fuel b', proof_of_work wLedgerA fuel wBlockA = some b' :=
  (claim_proof_of_work_least wLedgerA wBlockA ⟨0, by rfl⟩).1

/-- C4: a successful `add_data` call on a ledger with N blocks yields exactly
N + 1 blocks: the old chain unchanged in place, with one new block appended
whose index is N, whose previous hash is the hash of the block that was last
before the call, and whose payload is the given data. -/
theorem claim_add_data_appends (B B' : Blockchain) (fuel : Nat) (x ts : String)
    (h : add_data B fuel x ts = some B') :
    B'.chain.length = B.chain.length + 1 ∧
    (∃ last, B.chain.getLast? = some last ∧
      ∃ nb, B'.chain = B.chain ++ [nb] ∧ B'.chain.getLast? = some nb ∧
        nb.index = B.chain.length ∧ nb.previous_hash = last.hash ∧
        nb.data = x) := by
  simp only [add_data] at h
  split at h
  · exact absurd h (by simp)
  next last hlast =>
    split at h
    · exact absurd h (by simp)
    next mined hpow =>
      simp only [Option.some.injEq] at h
      subst h
      have hpow' : powLoop B.difficulty fuel
          { Block.new B.chain.length last.hash ts x 0 with proof := 0 }
          = some mined := hpow
      obtain ⟨i1, i2, i3, i4, i5, i6, i7, i8, i9⟩ :=
        powLoop_sound B.difficulty fuel _ mined hpow'
      exact ⟨by simp, last, hlast, mined, rfl, List.getLast?_concat _, i1, i2, i4⟩

/-- Witness for C4 on the difficulty-0 one-block fixture. -/
theorem claim_add_data_appends_witness :
    wLedgerA'.chain.length = wLedgerA.chain.length + 1 :=
  (claim_add_data_appends wLedgerA wLedgerA' 1 "x" "ts" (by rfl)).1

/-- C7: on a currently valid ledger, overwriting the data of a non-genesis
block without recomputing its stored hash (so that the recomputed digest of
the tampered block no longer matches the stored one) makes `is_chain_valid`
return false; overwriting the previous hash of a non-genesis block with any
value different from the predecessor's stored hash also makes
`is_chain_valid` return false. -/
theorem claim_tamper_detection (B : Blockchain) (i : Nat)
    (h1 : 1 ≤ i) (h2 : i < B.chain.length)
    (_hvalid : is_chain_valid B = true) :
    (∀ s : String,
      Block.calculate_hash { B.chain.getD i default with data := s }
          ≠ (B.chain.getD i default).hash →
      is_chain_valid { B with chain := setBlockData B.chain i s } = false) ∧
    (∀ p : String, p ≠ (B.chain.getD (i - 1) default).hash →
      is_chain_valid { B with chain := setBlockPrev B.chain i p } = false) := by
  constructor
  · intro s hs
    refine valid_false_of_tail_bad _
      ({ B.chain.getD i default with data := s }) ?_ ?_
    · show { B.chain.getD i default with data := s }
        ∈ (setBlockData B.chain i s).tail
      have hlen : i < (setBlockData B.chain i s).length := by
        rw [setBlockData_length]; exact h2
      have hmem := getD_tail_mem (setBlockData B.chain i s) i h1 hlen
      rw [setBlockData_getD_eq B.chain i s h2] at hmem
      exact hmem
    · intro he
      exact hs he.symm
  · intro p hp
    have hi1 : (i - 1) + 1 = i := by omega
    refine valid_false_of_link_bad _ (i - 1) ?_ ?_
    · show (i - 1) + 1 < (setBlockPrev B.chain i p).length
      rw [setBlockPrev_length, hi1]
      exact h2
    · show ((setBlockPrev B.chain i p).getD ((i - 1) + 1) default).previous_hash
        ≠ ((setBlockPrev B.chain i p).getD (i - 1) default).hash
      rw [hi1, setBlockPrev_getD_eq B.chain i p h2,
        setBlockPrev_getD_ne B.chain i (i - 1) p (by omega)]
      exact hp

/-- Witness for C7: tampering with the second block's payload on a concrete
valid two-block ledger. -/
theorem claim_tamper_detection_witness :
    is_chain_valid { wChain with chain := setBlockData wChain.chain 1 "tampered" }
      = false :=
  (claim_tamper_detection wChain 1 (by decide) (by decide) (by rfl)).1
    "tampered" (by decide)

/-- C8: `is_chain_valid` reads the genesis block only through its stored hash
field: replacing genesis by any block with the same stored hash (arbitrary
index, previous hash, timestamp, data, proof) leaves the verdict unchanged;
in particular overwriting genesis data without updating its stored hash
never changes the verdict. -/
theorem claim_genesis_only_hash_matters (g g' : Block) (rest : List Block)
    (d : Nat) (hh : g.hash = g'.hash) :
    is_chain_valid ⟨g :: rest, d⟩ = is_chain_valid ⟨g' :: rest, d⟩ ∧
    (∀ s : String,
      is_chain_valid ⟨setBlockData (g :: rest) 0 s, d⟩
        = is_chain_valid ⟨g :: rest, d⟩) := by
  have key : ∀ (a a' : Block) (l : List Block), a.hash = a'.hash →
      is_chain_valid_from a l = is_chain_valid_from a' l := by
    intro a a' l haa
    cases l with
    | nil => rfl
    | cons cur rest2 =>
      simp only [is_chain_valid_from]
      rw [haa]
  exact ⟨key g g' rest hh, fun s => key { g with data := s } g rest rfl⟩

/-- Witness for C8 on one-block ledgers agreeing only in the stored hash. -/
theorem claim_genesis_only_hash_matters_witness :
    is_chain_valid ⟨[wBlockA], 0⟩ = is_chain_valid ⟨[wBlockB], 0⟩ :=
  (claim_genesis_only_hash_matters wBlockA wBlockB [] 0 rfl).1
